import Mathlib

/-!
Verification of the financeradar RSS aggregator's deduplication and
clustering pipeline (`src/aggregator.py`), shallowly embedded in Lean.

Conventions of the embedding:
* Python strings are Lean `String` / `List Char`; the character classes of
  Python's regex `\w` and `\s` and of `str.lower` are modelled on the ASCII
  range (feed titles and URLs handled by the character-level code paths under
  study are ASCII; Lean's `Char.toLower`, `Char.isAlphanum` agree with Python
  there).
* Python `datetime` objects are modelled by `PyDatetime`: the wall-clock
  value as seconds since the epoch of the *displayed* (naive) fields, plus an
  optional UTC-offset for timezone-aware values (`none` = naive).  Values are
  assumed to be in the platform-representable range, so the defensive
  `except (OSError, OverflowError, ValueError)` branches, which can only fire
  outside that range, are not modelled.
* Python `set` objects that are used only for membership tests are modelled
  as `List` with decidable membership; the code only ever inserts an element
  after a failed membership test, so list-cons is an exact model of
  `set.add`.
* Integer ratio comparisons (`overlap / min_len < 0.5`,
  `SequenceMatcher.ratio() >= 0.75`) are modelled as exact rational
  comparisons (`2 * overlap < min_len`, `8 * M >= 3 * T`); for the operand
  sizes reachable here (word counts and title lengths) IEEE-754 double
  division decides these comparisons exactly.
-/

/-- Python regex `\s` and `str.strip` whitespace, ASCII range. -/
def pyIsSpace (c : Char) : Bool :=
  c = ' ' || c = '\t' || c = '\n' || c = '\r' || c = '\x0b' || c = '\x0c'

/-- Python regex `\w` word characters, ASCII range. -/
def pyIsWordChar (c : Char) : Bool := c.isAlphanum || c = '_'

/-- Python `str.lower` (ASCII range). -/
def lowerL (s : List Char) : List Char := s.map Char.toLower

/-- The words of the prefix patterns stripped by `normalize_title`
(`aggregator.py` lines 52-58); each pattern is `word` followed by `:` and
then `\s*`. -/
def prefixTags : List (List Char) :=
  ["breaking", "exclusive", "update", "urgent", "just in", "live",
   "watch", "video", "opinion", "analysis", "explained"].map String.data

/-- One `re.sub(r'^word:\s*', '', s)` step: the pattern is anchored, so it
fires at most once, removing the literal word, the colon and any following
whitespace. -/
def dropPrefixTag (p : List Char) (s : List Char) : List Char :=
  if (p ++ [':']).isPrefixOf s then (s.drop (p.length + 1)).dropWhile pyIsSpace
  else s

/-- The prefix-stripping loop of `normalize_title` (applied in order). -/
def stripPrefixes (s : List Char) : List Char :=
  prefixTags.foldl (fun acc p => dropPrefixTag p acc) s

/-- `re.sub(r'[^\w\s]', ' ', s)` acting on one character. -/
def depunctChar (c : Char) : Char :=
  if pyIsWordChar c || pyIsSpace c then c else ' '

/-- `re.sub(r'\s+', ' ', s)`: collapse every whitespace run into a single
blank.  The Boolean records whether the previous character was whitespace. -/
def squeezeAux : Bool → List Char → List Char
  | _, [] => []
  | prevSpace, c :: rest =>
    if pyIsSpace c then
      if prevSpace then squeezeAux true rest else ' ' :: squeezeAux true rest
    else c :: squeezeAux false rest

/-- Python `str.lstrip()`. -/
def pyLStrip (s : List Char) : List Char := s.dropWhile pyIsSpace

/-- Python `str.rstrip()`. -/
def pyRStrip (s : List Char) : List Char := (s.reverse.dropWhile pyIsSpace).reverse

/-- Python `str.strip()`. -/
def pyStripWS (s : List Char) : List Char := pyRStrip (pyLStrip s)

/-- `re.sub(r'\s+', ' ', s).strip()`, the last stage of `normalize_title`. -/
def collapseWS (s : List Char) : List Char := pyStripWS (squeezeAux false s)

/-- `normalize_title` (`aggregator.py` lines 43-64): lowercase, strip the
"BREAKING:"-style prefixes, replace non-word non-space characters by blanks,
collapse whitespace and strip. -/
def normalize_title (title : String) : String :=
  if title = "" then ""
  else String.mk (collapseWS ((stripPrefixes (lowerL title.data)).map depunctChar))

/-- Python `str.split()` with no separator: the whitespace-delimited words,
with an accumulator for the word currently being read (in reverse). -/
def pyWordsAux : List Char → List Char → List (List Char)
  | [], acc => if acc.isEmpty then [] else [acc.reverse]
  | c :: rest, acc =>
    if pyIsSpace c then
      if acc.isEmpty then pyWordsAux rest [] else acc.reverse :: pyWordsAux rest []
    else pyWordsAux rest (c :: acc)

/-- Python `str.split()` with no separator. -/
def pyWords (s : List Char) : List (List Char) := pyWordsAux s []

/-- `get_title_signature` (`aggregator.py` lines 84-90): the set of
significant (length at least 4) words of the normalized title, modelled as a
duplicate-free list. -/
def get_title_signature (title : String) : List String :=
  (((pyWords (normalize_title title).data).map String.mk).dedup).filter
    (fun w => 4 ≤ w.length)

/-- Lookup in the `j2len` dictionaries of `difflib.SequenceMatcher`
(`dict.get(k, 0)` with most-recent binding first). -/
def lookupD (m : List (Nat × Nat)) (k : Nat) : Nat :=
  match m.lookup k with
  | some v => v
  | none => 0

/-- One row (one index `i` of `a`) of the dynamic program inside
`difflib.SequenceMatcher.find_longest_match`: scan the candidate positions
`j` of `a[i]` inside `b[blo:bhi]`, building the new `j2len` table and
updating the best block.  `Python`'s `j2len.get(j-1, 0)` at `j = 0` reads
index `-1`, which is always absent, hence the `j = 0` special case. -/
def flmRow (ci : Char) (i : Nat) (b : List Char) (blo bhi : Nat)
    (j2len : List (Nat × Nat)) (best : Nat × Nat × Nat) :
    List (Nat × Nat) × (Nat × Nat × Nat) :=
  (List.range' blo (bhi - blo)).foldl
    (fun st j =>
      if b.getD j (Char.ofNat 0) = ci then
        let k := if j = 0 then 1 else lookupD j2len (j - 1) + 1
        let newBest := if st.2.2.2 < k then (i + 1 - k, j + 1 - k, k) else st.2
        ((j, k) :: st.1, newBest)
      else st)
    ([], best)

/-- `difflib.SequenceMatcher.find_longest_match(alo, ahi, blo, bhi)` with no
junk characters (the autojunk heuristic only applies to sequences of length
at least 200, and with an empty junk set the two junk-extension loops of the
Python source never fire, the dynamic program having already found a maximal
block).  Returns `(besti, bestj, bestsize)`. -/
def flm (a b : List Char) (alo ahi blo bhi : Nat) : Nat × Nat × Nat :=
  ((List.range' alo (ahi - alo)).foldl
    (fun st i => flmRow (a.getD i (Char.ofNat 0)) i b blo bhi st.1 st.2)
    ([], (alo, blo, 0))).2

/-- The block-splitting queue loop of
`difflib.SequenceMatcher.get_matching_blocks`, returning the total size of
all matching blocks (their order and the merging of adjacent blocks do not
affect the total).  The fuel strictly exceeds the loop's step count: every
iteration either pops an interval pair or splits one into two pairs whose
combined extent is smaller by at least two, so the measure
`(total extent) + (queue length)` strictly decreases. -/
def matchBlocksGo (a b : List Char) : Nat → List (Nat × Nat × Nat × Nat) → Nat
  | 0, _ => 0
  | _ + 1, [] => 0
  | fuel + 1, (alo, ahi, blo, bhi) :: queue =>
    let r := flm a b alo ahi blo bhi
    if r.2.2 = 0 then matchBlocksGo a b fuel queue
    else
      r.2.2 + matchBlocksGo a b fuel
        ((alo, r.1, blo, r.2.1) :: ((r.1 + r.2.2, ahi, r.2.1 + r.2.2, bhi) :: queue))

/-- Total matched size `M` of `difflib.SequenceMatcher(None, s1, s2)`. -/
def sequenceMatcherTotal (s1 s2 : List Char) : Nat :=
  matchBlocksGo s1 s2 (2 * (s1.length + s2.length) + 8)
    [(0, s1.length, 0, s2.length)]

/-- `SequenceMatcher.ratio() >= 0.75`, i.e. `2M / (len1 + len2) >= 3/4`,
compared exactly; `difflib._calculate_ratio` returns `1.0` when both
sequences are empty. -/
def ratioGeThreshold (s1 s2 : List Char) : Bool :=
  let total := s1.length + s2.length
  if total = 0 then true
  else 3 * total ≤ 8 * sequenceMatcherTotal s1 s2

/-- `titles_are_similar` (`aggregator.py` lines 67-81) at the default
threshold `0.75`: empty normalizations never match; equal normalizations
always match; otherwise the `SequenceMatcher` ratio decides. -/
def titles_are_similar (title1 title2 : String) : Bool :=
  let norm1 := normalize_title title1
  let norm2 := normalize_title title2
  if norm1 = "" || norm2 = "" then false
  else if norm1 = norm2 then true
  else ratioGeThreshold norm1.data norm2.data

example : normalize_title "BREAKING: RBI cuts repo-rate!" = "rbi cuts repo rate" := by rfl
example : normalize_title "  Watch:  Live:   markets  " = "watch live markets" := by rfl
example : normalize_title "Watch: Live: markets" = "live markets" := by rfl
example : get_title_signature "RBI cuts repo rate by 25 bps" = ["cuts", "repo", "rate"] := by rfl
example : titles_are_similar "RBI cuts repo rate" "rbi cuts repo rate!!" = true := by rfl
example : titles_are_similar "" "anything" = false := by rfl
example : titles_are_similar "abcdefgh" "abcdefgx" = true := by rfl
example : titles_are_similar "abcd" "wxyz" = false := by rfl

/-- A Python `datetime`: `wallSeconds` is the wall-clock (naive field) value
in seconds since the epoch, `tzOffsetSeconds` the UTC offset of an aware
value (`none` for naive values). -/
structure PyDatetime where
  wallSeconds : Int
  tzOffsetSeconds : Option Int
  deriving DecidableEq

/-- The IST display timezone offset (`IST_TZ`, UTC+05:30), in seconds. -/
def istOffsetSeconds : Int := 19800

/-- `dt.strftime("%Y-%m-%d")`, injectively coded as the wall-clock day
number: no timezone conversion is performed. -/
def strftimeDay (d : PyDatetime) : Int := d.wallSeconds.fdiv 86400

/-- The calendar day of `to_local_datetime dt` (`aggregator.py` lines
445-456): convert the instant to IST — treating naive values as UTC — and
take the day. -/
def istDay (d : PyDatetime) : Int :=
  (d.wallSeconds - d.tzOffsetSeconds.getD 0 + istOffsetSeconds).fdiv 86400

/-- An article record as consumed by the dedup/clustering stages: the
`title`, `link`, `source`, `source_url` and `date` keys of the Python
dicts. -/
structure Article where
  title : String
  link : String
  source : String
  source_url : String
  date : Option PyDatetime
  deriving DecidableEq

/-- One `related_sources` entry of a story group (`name`/`url`/`link`). -/
structure RelatedSource where
  name : String
  url : String
  link : String
  deriving DecidableEq

/-- One output group of `group_similar_articles`. -/
structure StoryGroup where
  primary : Article
  related_sources : List RelatedSource
  all_articles : List Article
  deriving DecidableEq

/-- The `date_key` of `group_similar_articles` (lines 109-114): the
`strftime("%Y-%m-%d")` day of a dated article, `none` standing for the empty
string used for undated articles. -/
def dateKeyA (a : Article) : Option Int := a.date.map strftimeDay

/-- Append a pair to the bucket with the given key, or open a new bucket at
the end — the insertion-order semantics of
`defaultdict(list)[date_key].append(...)`. -/
def insertBucket (k : Option Int) (p : Nat × Article) :
    List (Option Int × List (Nat × Article)) →
    List (Option Int × List (Nat × Article))
  | [] => [(k, [p])]
  | (k', ps) :: rest =>
    if k' = k then (k', ps ++ [p]) :: rest else (k', ps) :: insertBucket k p rest

/-- `articles_by_date` (lines 107-115): partition the enumerated articles by
`date_key`, buckets ordered by first appearance of their key, each bucket in
input order. -/
def bucketsOf (l : List (Nat × Article)) :
    List (Option Int × List (Nat × Article)) :=
  l.foldl (fun acc p => insertBucket (dateKeyA p.2) p acc) []

/-- The word-overlap pre-filter of the grouping loop (lines 145-152): skip
the expensive comparison when both signatures are non-empty and the overlap
ratio `|s1 ∩ s2| / min(|s1|, |s2|)` is below `0.5`.  Both signature lists
are duplicate-free, so `(s1.filter (· ∈ s2)).length` is the intersection
cardinality. -/
def preFilterSkips (s1 s2 : List String) : Bool :=
  !s1.isEmpty && !s2.isEmpty &&
    (let overlap := (s1.filter (fun w => w ∈ s2)).length
     let minLen := min s1.length s2.length
     decide (0 < minLen) && decide (2 * overlap < minLen))

/-- The `related_sources` entry produced by a claimed candidate, if any
(lines 155-161): same-source candidates produce none. -/
def mkRel (primary other : Article) : Option RelatedSource :=
  if other.source = primary.source then none
  else some ⟨other.source, other.source_url, other.link⟩

/-- The inner candidate scan of `group_similar_articles` (lines 141-163):
walk the later entries of the date bucket, skipping claimed indices and
pre-filtered candidates, and claim each remaining candidate whose title is
similar to the primary's.  Returns the `related_sources` list, the claimed
members (in order) and the updated `used` set.  The Python code reads the
candidate's precomputed `signatures[j]`, which equals
`get_title_signature other.title` because the signatures are computed from
the same enumeration. -/
def scanBucket (primary : Article) (sigP : List String) :
    List (Nat × Article) → List Nat →
    List RelatedSource × List Article × List Nat
  | [], used => ([], [], used)
  | (j, other) :: rest, used =>
    if j ∈ used then scanBucket primary sigP rest used
    else if preFilterSkips sigP (get_title_signature other.title) then
      scanBucket primary sigP rest used
    else if titles_are_similar primary.title other.title then
      let out := scanBucket primary sigP rest (j :: used)
      (match mkRel primary other with
       | some r => r :: out.1
       | none => out.1,
       other :: out.2.1, out.2.2)
    else scanBucket primary sigP rest used

/-- The outer loop of `group_similar_articles` over one date bucket (lines
126-165): each not-yet-claimed article opens a group and scans the later
bucket entries for members. -/
def processBucket :
    List (Nat × Article) → List Nat → List StoryGroup × List Nat
  | [], used => ([], used)
  | (i, a) :: rest, used =>
    if i ∈ used then processBucket rest used
    else
      let s := scanBucket a (get_title_signature a.title) rest (i :: used)
      let out := processBucket rest s.2.2
      (⟨a, s.1, a :: s.2.1⟩ :: out.1, out.2)

/-- The loop over `articles_by_date.items()`, threading the global `used`
set and concatenating the groups of every bucket. -/
def processBuckets :
    List (Option Int × List (Nat × Article)) → List Nat → List StoryGroup
  | [], _ => []
  | (_, b) :: rest, used =>
    let p := processBucket b used
    p.1 ++ processBuckets rest p.2

/-- `group_similar_articles` (`aggregator.py` lines 93-167). -/
def group_similar_articles (articles : List Article) : List StoryGroup :=
  processBuckets (bucketsOf articles.enum) []

/-- Python `str.replace("http://", "https://")`: replace every (non-
overlapping, left-to-right) occurrence, not only a leading one.  The fuel
(instantiated with the string length, an upper bound on the number of steps)
keeps the recursion structural. -/
def replaceHttpGo : Nat → List Char → List Char
  | _, [] => []
  | 0, s => s
  | fuel + 1, c :: rest =>
    if ("http://".data).isPrefixOf (c :: rest) then
      ("https://".data) ++ replaceHttpGo fuel (rest.drop 6)
    else c :: replaceHttpGo fuel rest

/-- Python `str.replace("http://", "https://")`. -/
def replaceHttp (s : List Char) : List Char := replaceHttpGo s.length s

/-- The URL normalization of the dedup stage (`aggregator.py` lines
4520-4522): `link.lower().strip().rstrip('/')` followed by replacing every
`"http://"` with `"https://"`. -/
def normalizeUrl (link : String) : String :=
  String.mk (replaceHttp ((pyStripWS (lowerL link.data)).reverse.dropWhile
    (fun c => c = '/')).reverse)

/-- The duplicate-removal loop of `main` (`aggregator.py` lines 4511-4529)
with its `seen_urls` set: drop articles whose link is empty or whitespace
only, keep the first article per normalized URL. -/
def dedupGo : List String → List Article → List Article
  | _, [] => []
  | seen, a :: rest =>
    if pyStripWS a.link.data = [] then dedupGo seen rest
    else
      let url := normalizeUrl a.link
      if url ∈ seen then dedupGo seen rest
      else a :: dedupGo (url :: seen) rest

/-- The exact URL deduplicator of `main`. -/
def dedupByUrl (articles : List Article) : List Article := dedupGo [] articles

/-- The epoch instant used by the age gate's comparison (`aggregator.py`
lines 4557-4560): naive datetimes are reinterpreted in IST
(`replace(tzinfo=IST_TZ)`) before comparing with the IST cutoff. -/
def gateEpoch (d : PyDatetime) : Int :=
  d.wallSeconds - d.tzOffsetSeconds.getD istOffsetSeconds

/-- The age gate of `main` (`aggregator.py` lines 4545-4566): keep undated
articles unconditionally, keep dated articles whose instant is at least the
cutoff. -/
def ageGate (cutoffEpoch : Int) (articles : List Article) : List Article :=
  articles.filter fun a =>
    match a.date with
    | none => true
    | some d => cutoffEpoch ≤ gateEpoch d

/-- `get_sort_timestamp` (`aggregator.py` lines 432-442): `0` for undated
articles, otherwise `dt.timestamp()`; a naive datetime is interpreted by
Python in the platform's local timezone, whose offset is the `localOffset`
parameter. -/
def get_sort_timestamp (localOffset : Int) (a : Article) : Int :=
  match a.date with
  | none => 0
  | some d => d.wallSeconds - d.tzOffsetSeconds.getD localOffset

/-- `get_group_timestamp` inside `generate_html` (lines 493-494). -/
def get_group_timestamp (localOffset : Int) (g : StoryGroup) : Int :=
  get_sort_timestamp localOffset g.primary

/-- Stable insertion into a sorted list: the element is placed before the
first entry it relates to, which is exactly where Python's stable sort
leaves it. -/
def stableInsert (le : α → α → Bool) (a : α) : List α → List α
  | [] => [a]
  | b :: l => if le a b then a :: b :: l else b :: stableInsert le a l

/-- A stable sort.  Python's `list.sort` is specified to be stable, and a
stable sort's output is uniquely determined by the ordering, so insertion
sort is an exact model of `list.sort(key=..., reverse=True)` when `le` is
the induced total preorder. -/
def stableSort (le : α → α → Bool) : List α → List α
  | [] => []
  | a :: l => stableInsert le a (stableSort le l)

/-- The descending-timestamp order used by
`sort(key=get_group_timestamp, reverse=True)`. -/
def groupGE (localOffset : Int) (g1 g2 : StoryGroup) : Bool :=
  decide (get_group_timestamp localOffset g2 ≤ get_group_timestamp localOffset g1)

/-- The per-feed cap loop of `generate_html` (lines 502-512): walk the
sorted groups, keeping a group only while its primary's source has fewer
than `MAX_PER_FEED = 50` kept groups, counting per source in a dict. -/
def capGo : List (String × Nat) → List StoryGroup → List StoryGroup
  | _, [] => []
  | counts, g :: rest =>
    let s := g.primary.source
    let c := ((counts.lookup s).getD 0)
    if c < 50 then g :: capGo ((s, c + 1) :: counts) rest
    else capGo counts rest

/-- The group ordering and capping stage of `generate_html` (`aggregator.py`
lines 489-516): sort dated groups newest first, append undated groups, apply
the per-source cap of 50, then re-sort the capped list. -/
def generate_html_sorted_groups (localOffset : Int) (groups : List StoryGroup) :
    List StoryGroup :=
  let withDate := groups.filter (fun g => g.primary.date.isSome)
  let withoutDate := groups.filter (fun g => !g.primary.date.isSome)
  let allSorted := stableSort (groupGE localOffset) withDate ++ withoutDate
  let capped := capGo [] allSorted
  stableSort (groupGE localOffset) capped

/-- A dated test article used in concrete evaluations below. -/
def tA1 : Article :=
  ⟨"RBI cuts repo rate by 25 bps", "https://a.com/1", "A", "https://a.com",
   some ⟨82800, some 0⟩⟩

/-- A second test article, same bucket day, similar title, other source. -/
def tA2 : Article :=
  ⟨"RBI Cuts Repo Rate By 25 Bps!", "https://b.com/1", "B", "https://b.com",
   some ⟨3600, some 0⟩⟩

example :
    group_similar_articles [tA1, tA2] =
      [⟨tA1, [⟨"B", "https://b.com", "https://b.com/1"⟩], [tA1, tA2]⟩] := by
  rfl

example : normalizeUrl "HTTP://X.com/Y/" = "https://x.com/y" := by rfl

example : dedupByUrl [tA1, ⟨"t", "HTTPS://A.com/1/", "C", "u", none⟩] = [tA1] := by rfl

example : ageGate 4000 [⟨"t", "l", "s", "u", none⟩, tA2] = [⟨"t", "l", "s", "u", none⟩] := by
  rfl

example :
    generate_html_sorted_groups istOffsetSeconds
      [⟨tA2, [], [tA2]⟩, ⟨tA1, [], [tA1]⟩] =
      [⟨tA1, [], [tA1]⟩, ⟨tA2, [], [tA2]⟩] := by rfl

/-- Claim C2: `titles_are_similar` holds exactly when both normalized titles
are non-empty and they are either equal or their `SequenceMatcher` ratio is
at least `0.75`; in particular an empty-normalizing title is never similar
to anything. -/
theorem c2_titles_are_similar_iff (t1 t2 : String) :
    titles_are_similar t1 t2 = true ↔
      (normalize_title t1 ≠ "" ∧ normalize_title t2 ≠ "" ∧
        (normalize_title t1 = normalize_title t2 ∨
          ratioGeThreshold (normalize_title t1).data (normalize_title t2).data = true)) := by
  by_cases h1 : normalize_title t1 = "" <;>
    by_cases h2 : normalize_title t2 = "" <;>
      by_cases h3 : normalize_title t1 = normalize_title t2 <;>
        simp [titles_are_similar, h1, h2, h3]

/-- Claim C8: the age gate always retains undated articles, and an article
it removes is necessarily dated strictly before the cutoff. -/
theorem c8_age_gate (cutoffEpoch : Int) (l : List Article) (a : Article)
    (h : a ∈ l) :
    (a.date = none → a ∈ ageGate cutoffEpoch l) ∧
      (a ∉ ageGate cutoffEpoch l →
        ∃ d, a.date = some d ∧ gateEpoch d < cutoffEpoch) := by
  constructor
  · intro hd
    refine List.mem_filter.mpr ⟨h, ?_⟩
    simp [hd]
  · intro hnot
    cases hd : a.date with
    | none => exact absurd (List.mem_filter.mpr ⟨h, by simp [hd]⟩) hnot
    | some d =>
      refine ⟨d, rfl, ?_⟩
      by_contra hlt
      push_neg at hlt
      exact hnot (List.mem_filter.mpr ⟨h, by simp only [hd]; exact decide_eq_true hlt⟩)

/-- Witness for C8 at a concrete undated article. -/
theorem c8_age_gate_witness :
    (⟨"t", "l", "s", "u", none⟩ : Article) ∈
      ageGate 4000 [⟨"t", "l", "s", "u", none⟩, tA2] :=
  (c8_age_gate 4000 [⟨"t", "l", "s", "u", none⟩, tA2] ⟨"t", "l", "s", "u", none⟩
    (List.mem_cons_self _ _)).1 rfl

/-- Structure of the candidate scan: the related-source list is the image of
the claimed members under `mkRel`, and every claimed member comes from the
candidate list, is similar to the primary and passed the pre-filter. -/
theorem scanBucket_spec (p : Article) (sigP : List String) :
    ∀ (c : List (Nat × Article)) (u : List Nat),
      (scanBucket p sigP c u).1 =
        (scanBucket p sigP c u).2.1.filterMap (fun m => mkRel p m) ∧
      ∀ m ∈ (scanBucket p sigP c u).2.1,
        (∃ j, (j, m) ∈ c) ∧ titles_are_similar p.title m.title = true ∧
          preFilterSkips sigP (get_title_signature m.title) = false := by
  intro c
  induction c with
  | nil => intro u; simp [scanBucket]
  | cons hd tl ih =>
    obtain ⟨j, other⟩ := hd
    intro u
    by_cases hu : j ∈ u
    · simp only [scanBucket, if_pos hu]
      refine ⟨(ih u).1, fun m hm => ?_⟩
      obtain ⟨⟨j', hj'⟩, hsim, hpre⟩ := (ih u).2 m hm
      exact ⟨⟨j', List.mem_cons_of_mem _ hj'⟩, hsim, hpre⟩
    · by_cases hpre : preFilterSkips sigP (get_title_signature other.title) = true
      · simp only [scanBucket, if_neg hu, if_pos hpre]
        refine ⟨(ih u).1, fun m hm => ?_⟩
        obtain ⟨⟨j', hj'⟩, hsim, hpre'⟩ := (ih u).2 m hm
        exact ⟨⟨j', List.mem_cons_of_mem _ hj'⟩, hsim, hpre'⟩
      · by_cases hsim : titles_are_similar p.title other.title = true
        · simp only [scanBucket, if_neg hu, if_neg hpre, if_pos hsim]
          constructor
          · cases hrel : mkRel p other with
            | some r =>
              simp only [hrel, List.filterMap_cons, (ih (j :: u)).1]
            | none =>
              simp only [hrel, List.filterMap_cons, (ih (j :: u)).1]
          · intro m hm
            rcases List.mem_cons.mp hm with hm | hm
            · subst hm
              exact ⟨⟨j, List.mem_cons_self _ _⟩, hsim,
                Bool.eq_false_iff.mpr hpre⟩
            · obtain ⟨⟨j', hj'⟩, hsim', hpre'⟩ := (ih (j :: u)).2 m hm
              exact ⟨⟨j', List.mem_cons_of_mem _ hj'⟩, hsim', hpre'⟩
        · simp only [scanBucket, if_neg hu, if_neg hpre, if_neg hsim]
          refine ⟨(ih u).1, fun m hm => ?_⟩
          obtain ⟨⟨j', hj'⟩, hsim', hpre'⟩ := (ih u).2 m hm
          exact ⟨⟨j', List.mem_cons_of_mem _ hj'⟩, hsim', hpre'⟩

/-- Structure of the per-bucket grouping loop: every emitted group consists
of a primary drawn from the bucket plus members drawn from the bucket, each
similar to the primary, pre-filter passed, with the related list determined
by `mkRel`. -/
theorem processBucket_spec :
    ∀ (b : List (Nat × Article)) (u : List Nat) (g : StoryGroup),
      g ∈ (processBucket b u).1 →
      ∃ rest, g.all_articles = g.primary :: rest ∧
        g.related_sources = rest.filterMap (fun m => mkRel g.primary m) ∧
        (∃ i, (i, g.primary) ∈ b) ∧
        ∀ m ∈ rest, (∃ j, (j, m) ∈ b) ∧
          titles_are_similar g.primary.title m.title = true ∧
          preFilterSkips (get_title_signature g.primary.title)
            (get_title_signature m.title) = false := by
  intro b
  induction b with
  | nil => intro u g hg; simp [processBucket] at hg
  | cons hd tl ih =>
    obtain ⟨i, a⟩ := hd
    intro u g hg
    by_cases hu : i ∈ u
    · simp only [processBucket, if_pos hu] at hg
      obtain ⟨rest, h1, h2, ⟨i', hi'⟩, h4⟩ := ih u g hg
      refine ⟨rest, h1, h2, ⟨i', List.mem_cons_of_mem _ hi'⟩, fun m hm => ?_⟩
      obtain ⟨⟨j', hj'⟩, hsim, hpre⟩ := h4 m hm
      exact ⟨⟨j', List.mem_cons_of_mem _ hj'⟩, hsim, hpre⟩
    · simp only [processBucket, if_neg hu, List.mem_cons] at hg
      rcases hg with hg | hg
      · subst hg
        have hs := scanBucket_spec a (get_title_signature a.title) tl (i :: u)
        refine ⟨(scanBucket a (get_title_signature a.title) tl (i :: u)).2.1,
          rfl, hs.1, ⟨i, List.mem_cons_self _ _⟩, fun m hm => ?_⟩
        obtain ⟨⟨j', hj'⟩, hsim, hpre⟩ := hs.2 m hm
        exact ⟨⟨j', List.mem_cons_of_mem _ hj'⟩, hsim, hpre⟩
      · obtain ⟨rest, h1, h2, ⟨i', hi'⟩, h4⟩ := ih _ g hg
        refine ⟨rest, h1, h2, ⟨i', List.mem_cons_of_mem _ hi'⟩, fun m hm => ?_⟩
        obtain ⟨⟨j', hj'⟩, hsim, hpre⟩ := h4 m hm
        exact ⟨⟨j', List.mem_cons_of_mem _ hj'⟩, hsim, hpre⟩

/-- Every output group of the bucket loop stems from a single bucket. -/
theorem processBuckets_spec :
    ∀ (bs : List (Option Int × List (Nat × Article))) (u : List Nat)
      (g : StoryGroup), g ∈ processBuckets bs u →
      ∃ kb, kb ∈ bs ∧
        ∃ rest, g.all_articles = g.primary :: rest ∧
          g.related_sources = rest.filterMap (fun m => mkRel g.primary m) ∧
          (∃ i, (i, g.primary) ∈ kb.2) ∧
          ∀ m ∈ rest, (∃ j, (j, m) ∈ kb.2) ∧
            titles_are_similar g.primary.title m.title = true ∧
            preFilterSkips (get_title_signature g.primary.title)
              (get_title_signature m.title) = false := by
  intro bs
  induction bs with
  | nil => intro u g hg; simp [processBuckets] at hg
  | cons hd tl ih =>
    intro u g hg
    simp only [processBuckets, List.mem_append] at hg
    rcases hg with hg | hg
    · exact ⟨hd, List.mem_cons_self _ _, processBucket_spec hd.2 u g hg⟩
    · obtain ⟨kb, hkb, hrest⟩ := ih _ g hg
      exact ⟨kb, List.mem_cons_of_mem _ hkb, hrest⟩

/-- `insertBucket` preserves the invariant that every bucket holds only
pairs whose date key is the bucket's key. -/
theorem insertBucket_key (k : Option Int) (p : Nat × Article)
    (hp : dateKeyA p.2 = k) :
    ∀ (acc : List (Option Int × List (Nat × Article))),
      (∀ kb ∈ acc, ∀ q ∈ kb.2, dateKeyA q.2 = kb.1) →
      ∀ kb ∈ insertBucket k p acc, ∀ q ∈ kb.2, dateKeyA q.2 = kb.1 := by
  intro acc
  induction acc with
  | nil =>
    intro _ kb hkb q hq
    simp only [insertBucket, List.mem_singleton] at hkb
    subst hkb
    simp only [List.mem_singleton] at hq
    subst hq
    exact hp
  | cons hd tl ih =>
    obtain ⟨k', ps⟩ := hd
    intro hacc kb hkb q hq
    by_cases hk : k' = k
    · simp only [insertBucket, if_pos hk, List.mem_cons] at hkb
      rcases hkb with hkb | hkb
      · subst hkb
        simp only [List.mem_append, List.mem_singleton] at hq
        rcases hq with hq | hq
        · exact hacc (k', ps) (List.mem_cons_self _ _) q hq
        · subst hq; rw [hp, hk]
      · exact hacc kb (List.mem_cons_of_mem _ hkb) q hq
    · simp only [insertBucket, if_neg hk, List.mem_cons] at hkb
      rcases hkb with hkb | hkb
      · subst hkb
        exact hacc (k', ps) (List.mem_cons_self _ _) q hq
      · exact ih (fun kb' h' => hacc kb' (List.mem_cons_of_mem _ h')) kb hkb q hq

/-- Every pair filed by `bucketsOf` sits in the bucket of its own date
key. -/
theorem bucketsOf_key (l : List (Nat × Article)) :
    ∀ kb ∈ bucketsOf l, ∀ q ∈ kb.2, dateKeyA q.2 = kb.1 := by
  have main : ∀ (l : List (Nat × Article))
      (acc : List (Option Int × List (Nat × Article))),
      (∀ kb ∈ acc, ∀ q ∈ kb.2, dateKeyA q.2 = kb.1) →
      ∀ kb ∈ l.foldl (fun acc p => insertBucket (dateKeyA p.2) p acc) acc,
        ∀ q ∈ kb.2, dateKeyA q.2 = kb.1 := by
    intro l
    induction l with
    | nil => intro acc hacc; exact hacc
    | cons hd tl ih =>
      intro acc hacc
      exact ih _ (insertBucket_key _ hd rfl acc hacc)
  exact main l [] (by simp)

/-- Structure of every output group of `group_similar_articles`: the member
list starts with the primary; the related sources are exactly the
different-source members via `mkRel`; and every non-primary member is
similar to the primary, passed the word-overlap pre-filter against it, and
shares its date bucket. -/
theorem group_spec (articles : List Article) (g : StoryGroup)
    (hg : g ∈ group_similar_articles articles) :
    ∃ rest, g.all_articles = g.primary :: rest ∧
      g.related_sources = rest.filterMap (fun m => mkRel g.primary m) ∧
      ∀ m ∈ rest,
        titles_are_similar g.primary.title m.title = true ∧
        preFilterSkips (get_title_signature g.primary.title)
          (get_title_signature m.title) = false ∧
        dateKeyA m = dateKeyA g.primary := by
  obtain ⟨kb, hkb, rest, h1, h2, ⟨i, hi⟩, h4⟩ :=
    processBuckets_spec (bucketsOf articles.enum) [] g hg
  have hkey := bucketsOf_key articles.enum kb hkb
  refine ⟨rest, h1, h2, fun m hm => ?_⟩
  obtain ⟨⟨j, hj⟩, hsim, hpre⟩ := h4 m hm
  refine ⟨hsim, hpre, ?_⟩
  rw [hkey (j, m) hj, hkey (i, g.primary) hi]

/-- A third test article: same source as `tA1`, similar title, same day. -/
def tB2 : Article :=
  ⟨"RBI cuts repo rate by 25 bps!!", "https://a.com/2", "A", "https://a.com",
   some ⟨82800, some 0⟩⟩

/-- Counterexample to claim C3 as stated: `tA1` (23:00 UTC) and `tA2`
(01:00 UTC) share the `strftime` calendar date of their stored timestamps,
so they are grouped together, yet their calendar dates in the IST display
timezone differ — the bucketing never converts to the display timezone. -/
theorem c3_ist_counterexample :
    group_similar_articles [tA1, tA2] =
      [⟨tA1, [⟨"B", "https://b.com", "https://b.com/1"⟩], [tA1, tA2]⟩] ∧
      tA1.date.map istDay ≠ tA2.date.map istDay := by
  exact ⟨rfl, by decide⟩

/-- Claim C3 (amended): articles in one StoryGroup always share the
`date_key` — the calendar date of the stored timestamp as rendered by
`strftime("%Y-%m-%d")` without timezone conversion, with undated articles
forming their own bucket. -/
theorem c3_date_bucket_isolation (articles : List Article) (g : StoryGroup)
    (hg : g ∈ group_similar_articles articles) (a : Article)
    (ha : a ∈ g.all_articles) : dateKeyA a = dateKeyA g.primary := by
  obtain ⟨rest, h1, _, h3⟩ := group_spec articles g hg
  rw [h1] at ha
  rcases List.mem_cons.mp ha with ha | ha
  · rw [ha]
  · exact (h3 a ha).2.2

/-- Witness for the amended C3 at a concrete grouped pair. -/
theorem c3_date_bucket_isolation_witness :
    (⟨tA1, [⟨"B", "https://b.com", "https://b.com/1"⟩], [tA1, tA2]⟩ : StoryGroup) ∈
        group_similar_articles [tA1, tA2] ∧
      dateKeyA tA2 =
        dateKeyA (⟨tA1, [⟨"B", "https://b.com", "https://b.com/1"⟩],
          [tA1, tA2]⟩ : StoryGroup).primary :=
  ⟨by decide,
    c3_date_bucket_isolation [tA1, tA2] _ (by decide) tA2 (by decide)⟩

/-- Claim C5: a non-primary member of a group never satisfied the
word-overlap skip condition against the primary — equivalently, a candidate
with both signatures non-empty and overlap ratio below `0.5` is never merged
into that primary's group, whatever the character-level ratio would say. -/
theorem c5_pre_filter_lossy_skip (articles : List Article) (g : StoryGroup)
    (hg : g ∈ group_similar_articles articles) (a : Article)
    (ha : a ∈ g.all_articles) (hne : a ≠ g.primary) :
    preFilterSkips (get_title_signature g.primary.title)
      (get_title_signature a.title) = false := by
  obtain ⟨rest, h1, _, h3⟩ := group_spec articles g hg
  rw [h1] at ha
  rcases List.mem_cons.mp ha with ha | ha
  · exact absurd ha hne
  · exact (h3 a ha).2.1

/-- Witness for C5 at a concrete grouped pair. -/
theorem c5_pre_filter_lossy_skip_witness :
    (⟨tA1, [⟨"B", "https://b.com", "https://b.com/1"⟩], [tA1, tA2]⟩ : StoryGroup) ∈
        group_similar_articles [tA1, tA2] ∧
      preFilterSkips (get_title_signature tA1.title)
        (get_title_signature tA2.title) = false :=
  ⟨by decide,
    c5_pre_filter_lossy_skip [tA1, tA2]
      ⟨tA1, [⟨"B", "https://b.com", "https://b.com/1"⟩], [tA1, tA2]⟩
      (by decide) tA2 (by decide) (by decide)⟩

/-- Claim C7: greedy single-link clustering — every non-primary member of a
group passes `titles_are_similar` directly against the primary's title. -/
theorem c7_direct_pair_membership (articles : List Article) (g : StoryGroup)
    (hg : g ∈ group_similar_articles articles) (a : Article)
    (ha : a ∈ g.all_articles) (hne : a ≠ g.primary) :
    titles_are_similar g.primary.title a.title = true := by
  obtain ⟨rest, h1, _, h3⟩ := group_spec articles g hg
  rw [h1] at ha
  rcases List.mem_cons.mp ha with ha | ha
  · exact absurd ha hne
  · exact (h3 a ha).1

/-- Witness for C7 at a concrete grouped pair. -/
theorem c7_direct_pair_membership_witness :
    (⟨tA1, [⟨"B", "https://b.com", "https://b.com/1"⟩], [tA1, tA2]⟩ : StoryGroup) ∈
        group_similar_articles [tA1, tA2] ∧
      titles_are_similar tA1.title tA2.title = true :=
  ⟨by decide,
    c7_direct_pair_membership [tA1, tA2]
      ⟨tA1, [⟨"B", "https://b.com", "https://b.com/1"⟩], [tA1, tA2]⟩
      (by decide) tA2 (by decide) (by decide)⟩

/-- Claim C6: same-source non-inflation — the related-source list is exactly
the image of the different-source non-primary members, so no related entry
carries the primary's source name, while same-source similar articles still
appear among the members. -/
theorem c6_same_source_non_inflation (articles : List Article) (g : StoryGroup)
    (hg : g ∈ group_similar_articles articles) :
    (∀ r ∈ g.related_sources, r.name ≠ g.primary.source) ∧
      ∃ rest, g.all_articles = g.primary :: rest ∧
        g.related_sources = rest.filterMap (fun m => mkRel g.primary m) := by
  obtain ⟨rest, h1, h2, _⟩ := group_spec articles g hg
  refine ⟨fun r hr => ?_, rest, h1, h2⟩
  rw [h2] at hr
  obtain ⟨m, _, hmk⟩ := List.mem_filterMap.mp hr
  unfold mkRel at hmk
  by_cases hsrc : m.source = g.primary.source
  · rw [if_pos hsrc] at hmk
    exact absurd hmk (by simp)
  · rw [if_neg hsrc] at hmk
    have : r.name = m.source := by
      cases hmk
      rfl
    rw [this]
    exact hsrc

/-- Witness for C6: in a three-article group with one same-source and one
other-source member, the sole related entry names the other source. -/
theorem c6_same_source_non_inflation_witness :
    (⟨tA1, [⟨"B", "https://b.com", "https://b.com/1"⟩], [tA1, tB2, tA2]⟩ : StoryGroup) ∈
        group_similar_articles [tA1, tB2, tA2] ∧
      (⟨"B", "https://b.com", "https://b.com/1"⟩ : RelatedSource).name ≠
        (⟨tA1, [⟨"B", "https://b.com", "https://b.com/1"⟩],
          [tA1, tB2, tA2]⟩ : StoryGroup).primary.source :=
  ⟨by decide,
    (c6_same_source_non_inflation [tA1, tB2, tA2]
      ⟨tA1, [⟨"B", "https://b.com", "https://b.com/1"⟩], [tA1, tB2, tA2]⟩
      (by decide)).1 ⟨"B", "https://b.com", "https://b.com/1"⟩ (by decide)⟩

/-- Dropping a filtered head whose index is already used. -/
theorem filter_head_drop {j : Nat} {other : Article} {u : List Nat}
    (h : j ∈ u) (c : List (Nat × Article)) :
    ((j, other) :: c).filter (fun q => decide (q.1 ∉ u)) =
      c.filter (fun q => decide (q.1 ∉ u)) := by
  simp [List.filter_cons, h]

/-- Keeping a filtered head whose index is not used. -/
theorem filter_head_keep {j : Nat} {other : Article} {u : List Nat}
    (h : j ∉ u) (c : List (Nat × Article)) :
    ((j, other) :: c).filter (fun q => decide (q.1 ∉ u)) =
      (j, other) :: c.filter (fun q => decide (q.1 ∉ u)) := by
  simp [List.filter_cons, h]

/-- Filtering by non-membership ignores a consed index that occurs nowhere
in the list. -/
theorem filter_notin_cons {j : Nat} {u : List Nat} {c : List (Nat × Article)}
    (hj : ∀ q ∈ c, q.1 ≠ j) :
    c.filter (fun q => decide (q.1 ∉ j :: u)) =
      c.filter (fun q => decide (q.1 ∉ u)) := by
  refine List.filter_congr fun q hq => ?_
  have hne : q.1 ≠ j := hj q hq
  simp [List.mem_cons, hne]

/-- The candidate scan never removes indices from the used set. -/
theorem scan_used_mono (p : Article) (sigP : List String) :
    ∀ (c : List (Nat × Article)) (u : List Nat) (k : Nat),
      k ∈ u → k ∈ (scanBucket p sigP c u).2.2 := by
  intro c
  induction c with
  | nil => intro u k hk; simpa [scanBucket] using hk
  | cons hd tl ih =>
    obtain ⟨j, other⟩ := hd
    intro u k hk
    by_cases hu : j ∈ u
    · simpa only [scanBucket, if_pos hu] using ih u k hk
    · by_cases hpre : preFilterSkips sigP (get_title_signature other.title) = true
      · simpa only [scanBucket, if_neg hu, if_pos hpre] using ih u k hk
      · by_cases hsim : titles_are_similar p.title other.title = true
        · simp only [scanBucket, if_neg hu, if_neg hpre, if_pos hsim]
          exact ih (j :: u) k (List.mem_cons_of_mem _ hk)
        · simpa only [scanBucket, if_neg hu, if_neg hpre, if_neg hsim] using ih u k hk

/-- Every index the candidate scan adds to the used set comes from the
candidate list. -/
theorem scan_used_sub (p : Article) (sigP : List String) :
    ∀ (c : List (Nat × Article)) (u : List Nat) (k : Nat),
      k ∈ (scanBucket p sigP c u).2.2 → k ∈ u ∨ k ∈ c.map Prod.fst := by
  intro c
  induction c with
  | nil => intro u k hk; simp [scanBucket] at hk; exact Or.inl hk
  | cons hd tl ih =>
    obtain ⟨j, other⟩ := hd
    intro u k hk
    by_cases hu : j ∈ u
    · simp only [scanBucket, if_pos hu] at hk
      rcases ih u k hk with h | h
      · exact Or.inl h
      · exact Or.inr (List.mem_cons_of_mem _ h)
    · by_cases hpre : preFilterSkips sigP (get_title_signature other.title) = true
      · simp only [scanBucket, if_neg hu, if_pos hpre] at hk
        rcases ih u k hk with h | h
        · exact Or.inl h
        · exact Or.inr (List.mem_cons_of_mem _ h)
      · by_cases hsim : titles_are_similar p.title other.title = true
        · simp only [scanBucket, if_neg hu, if_neg hpre, if_pos hsim] at hk
          rcases ih (j :: u) k hk with h | h
          · rcases List.mem_cons.mp h with h | h
            · exact Or.inr (by simp [h])
            · exact Or.inl h
          · exact Or.inr (List.mem_cons_of_mem _ h)
        · simp only [scanBucket, if_neg hu, if_neg hpre, if_neg hsim] at hk
          rcases ih u k hk with h | h
          · exact Or.inl h
          · exact Or.inr (List.mem_cons_of_mem _ h)

/-- Permutation invariant of the candidate scan: claimed members plus the
still-unclaimed candidates are a permutation of the candidates unclaimed
before the scan. -/
theorem scan_perm (p : Article) (sigP : List String) :
    ∀ (c : List (Nat × Article)) (u : List Nat), (c.map Prod.fst).Nodup →
      ((scanBucket p sigP c u).2.1 ++
        (c.filter (fun q => decide (q.1 ∉ (scanBucket p sigP c u).2.2))).map
          Prod.snd).Perm
        ((c.filter (fun q => decide (q.1 ∉ u))).map Prod.snd) := by
  intro c
  induction c with
  | nil => intro u _; simp [scanBucket]
  | cons hd tl ih =>
    obtain ⟨j, other⟩ := hd
    intro u hnd
    have hndtl : (tl.map Prod.fst).Nodup := (List.nodup_cons.mp (by simpa using hnd)).2
    have hjtl : j ∉ tl.map Prod.fst := (List.nodup_cons.mp (by simpa using hnd)).1
    have hjne : ∀ q ∈ tl, q.1 ≠ j := by
      intro q hq he
      exact hjtl (he ▸ List.mem_map_of_mem Prod.fst hq)
    by_cases hu : j ∈ u
    · simp only [scanBucket, if_pos hu]
      have hj2 : j ∈ (scanBucket p sigP tl u).2.2 := scan_used_mono p sigP tl u j hu
      rw [filter_head_drop hj2, filter_head_drop hu]
      exact ih u hndtl
    · by_cases hpre : preFilterSkips sigP (get_title_signature other.title) = true
      · simp only [scanBucket, if_neg hu, if_pos hpre]
        have hj2 : j ∉ (scanBucket p sigP tl u).2.2 := by
          intro h
          rcases scan_used_sub p sigP tl u j h with h | h
          · exact hu h
          · exact hjtl h
        rw [filter_head_keep hj2, filter_head_keep hu, List.map_cons, List.map_cons]
        exact (List.perm_middle.trans ((ih u hndtl).cons other))
      · by_cases hsim : titles_are_similar p.title other.title = true
        · simp only [scanBucket, if_neg hu, if_neg hpre, if_pos hsim]
          have hj2 : j ∈ (scanBucket p sigP tl (j :: u)).2.2 :=
            scan_used_mono p sigP tl (j :: u) j (List.mem_cons_self _ _)
          rw [filter_head_drop hj2, filter_head_keep hu, List.map_cons,
            List.cons_append]
          refine List.Perm.cons other ?_
          have := ih (j :: u) hndtl
          rwa [filter_notin_cons hjne] at this
        · simp only [scanBucket, if_neg hu, if_neg hpre, if_neg hsim]
          have hj2 : j ∉ (scanBucket p sigP tl u).2.2 := by
            intro h
            rcases scan_used_sub p sigP tl u j h with h | h
            · exact hu h
            · exact hjtl h
          rw [filter_head_keep hj2, filter_head_keep hu, List.map_cons, List.map_cons]
          exact (List.perm_middle.trans ((ih u hndtl).cons other))

/-- The bucket loop never removes indices from the used set. -/
theorem process_used_mono :
    ∀ (b : List (Nat × Article)) (u : List Nat) (k : Nat),
      k ∈ u → k ∈ (processBucket b u).2 := by
  intro b
  induction b with
  | nil => intro u k hk; simpa [processBucket] using hk
  | cons hd tl ih =>
    obtain ⟨i, a⟩ := hd
    intro u k hk
    by_cases hu : i ∈ u
    · simpa only [processBucket, if_pos hu] using ih u k hk
    · simp only [processBucket, if_neg hu]
      exact ih _ k (scan_used_mono a _ tl (i :: u) k (List.mem_cons_of_mem _ hk))

/-- Every index the bucket loop adds to the used set comes from the
bucket. -/
theorem process_used_sub :
    ∀ (b : List (Nat × Article)) (u : List Nat) (k : Nat),
      k ∈ (processBucket b u).2 → k ∈ u ∨ k ∈ b.map Prod.fst := by
  intro b
  induction b with
  | nil => intro u k hk; simp [processBucket] at hk; exact Or.inl hk
  | cons hd tl ih =>
    obtain ⟨i, a⟩ := hd
    intro u k hk
    by_cases hu : i ∈ u
    · simp only [processBucket, if_pos hu] at hk
      rcases ih u k hk with h | h
      · exact Or.inl h
      · exact Or.inr (List.mem_cons_of_mem _ h)
    · simp only [processBucket, if_neg hu] at hk
      rcases ih _ k hk with h | h
      · rcases scan_used_sub a _ tl (i :: u) k h with h' | h'
        · rcases List.mem_cons.mp h' with h' | h'
          · exact Or.inr (by simp [h'])
          · exact Or.inl h'
        · exact Or.inr (List.mem_cons_of_mem _ h')
      · exact Or.inr (List.mem_cons_of_mem _ h)

/-- After the bucket loop finishes, every index of the bucket is used. -/
theorem process_complete :
    ∀ (b : List (Nat × Article)) (u : List Nat) (q : Nat × Article),
      q ∈ b → q.1 ∈ (processBucket b u).2 := by
  intro b
  induction b with
  | nil => intro u q hq; simp at hq
  | cons hd tl ih =>
    obtain ⟨i, a⟩ := hd
    intro u q hq
    by_cases hu : i ∈ u
    · simp only [processBucket, if_pos hu]
      rcases List.mem_cons.mp hq with hq | hq
      · subst hq; exact process_used_mono tl u i hu
      · exact ih u q hq
    · simp only [processBucket, if_neg hu]
      rcases List.mem_cons.mp hq with hq | hq
      · subst hq
        exact process_used_mono tl _ i
          (scan_used_mono a _ tl (i :: u) i (List.mem_cons_self _ _))
      · exact ih _ q hq

/-- Permutation invariant of the bucket loop: the members of all emitted
groups plus the candidates still unclaimed at the end are a permutation of
the candidates unclaimed at the start. -/
theorem process_perm :
    ∀ (b : List (Nat × Article)) (u : List Nat), (b.map Prod.fst).Nodup →
      (((processBucket b u).1.flatMap StoryGroup.all_articles) ++
        (b.filter (fun q => decide (q.1 ∉ (processBucket b u).2))).map
          Prod.snd).Perm
        ((b.filter (fun q => decide (q.1 ∉ u))).map Prod.snd) := by
  intro b
  induction b with
  | nil => intro u _; simp [processBucket]
  | cons hd tl ih =>
    obtain ⟨i, a⟩ := hd
    intro u hnd
    have hndtl : (tl.map Prod.fst).Nodup := (List.nodup_cons.mp (by simpa using hnd)).2
    have hitl : i ∉ tl.map Prod.fst := (List.nodup_cons.mp (by simpa using hnd)).1
    have hine : ∀ q ∈ tl, q.1 ≠ i := by
      intro q hq he
      exact hitl (he ▸ List.mem_map_of_mem Prod.fst hq)
    by_cases hu : i ∈ u
    · simp only [processBucket, if_pos hu]
      have hi2 : i ∈ (processBucket tl u).2 := process_used_mono tl u i hu
      rw [filter_head_drop hi2, filter_head_drop hu]
      exact ih u hndtl
    · simp only [processBucket, if_neg hu]
      have hi2 : i ∈ (processBucket tl (scanBucket a (get_title_signature a.title) tl (i :: u)).2.2).2 :=
        process_used_mono tl _ i
          (scan_used_mono a _ tl (i :: u) i (List.mem_cons_self _ _))
      rw [filter_head_drop hi2, filter_head_keep hu, List.map_cons]
      simp only [List.flatMap_cons]
      have hscan := scan_perm a (get_title_signature a.title) tl (i :: u) hndtl
      rw [filter_notin_cons hine] at hscan
      have hproc := ih (scanBucket a (get_title_signature a.title) tl (i :: u)).2.2 hndtl
      have hshape :
          (StoryGroup.all_articles
              ⟨a, (scanBucket a (get_title_signature a.title) tl (i :: u)).1,
                a :: (scanBucket a (get_title_signature a.title) tl (i :: u)).2.1⟩ ++
            (processBucket tl (scanBucket a (get_title_signature a.title) tl (i :: u)).2.2).1.flatMap
              StoryGroup.all_articles) ++
          (tl.filter (fun q =>
            decide (q.1 ∉ (processBucket tl
              (scanBucket a (get_title_signature a.title) tl (i :: u)).2.2).2))).map Prod.snd
          = a :: ((scanBucket a (get_title_signature a.title) tl (i :: u)).2.1 ++
              ((processBucket tl (scanBucket a (get_title_signature a.title) tl (i :: u)).2.2).1.flatMap
                StoryGroup.all_articles ++
              (tl.filter (fun q =>
                decide (q.1 ∉ (processBucket tl
                  (scanBucket a (get_title_signature a.title) tl (i :: u)).2.2).2))).map Prod.snd)) := by
        simp [List.append_assoc]
      rw [hshape]
      exact List.Perm.cons a ((List.Perm.append_left _ hproc).trans hscan)

/-- Inserting a pair into the bucket map adds exactly that pair to the join
of all buckets. -/
theorem insertBucket_join (k : Option Int) (p : Nat × Article) :
    ∀ (acc : List (Option Int × List (Nat × Article))),
      ((insertBucket k p acc).flatMap (fun kb => kb.2)).Perm
        (acc.flatMap (fun kb => kb.2) ++ [p]) := by
  intro acc
  induction acc with
  | nil => simp [insertBucket]
  | cons hd tl ih =>
    obtain ⟨k', ps⟩ := hd
    by_cases hk : k' = k
    · simp only [insertBucket, if_pos hk, List.flatMap_cons]
      rw [List.append_assoc, List.append_assoc]
      exact List.Perm.append_left ps List.perm_append_comm
    · simp only [insertBucket, if_neg hk, List.flatMap_cons]
      rw [List.append_assoc]
      exact List.Perm.append_left ps ih

/-- The join of the buckets built by `bucketsOf` is a permutation of the
input pair list. -/
theorem bucketsOf_join (l : List (Nat × Article)) :
    ((bucketsOf l).flatMap (fun kb => kb.2)).Perm l := by
  have main : ∀ (l : List (Nat × Article))
      (acc : List (Option Int × List (Nat × Article))),
      ((l.foldl (fun acc p => insertBucket (dateKeyA p.2) p acc) acc).flatMap
        (fun kb => kb.2)).Perm (acc.flatMap (fun kb => kb.2) ++ l) := by
    intro l
    induction l with
    | nil => intro acc; simp
    | cons p tl ih =>
      intro acc
      have h1 := ih (insertBucket (dateKeyA p.2) p acc)
      have h2 := (insertBucket_join (dateKeyA p.2) p acc).append_right tl
      refine h1.trans (h2.trans ?_)
      rw [List.append_assoc]
      simp
  simpa using main l []

/-- Permutation invariant of the loop over all buckets, given globally
distinct indices none of which is initially used. -/
theorem buckets_perm :
    ∀ (bs : List (Option Int × List (Nat × Article))) (u : List Nat),
      ((bs.flatMap (fun kb => kb.2)).map Prod.fst).Nodup →
      (∀ q ∈ bs.flatMap (fun kb => kb.2), q.1 ∉ u) →
      ((processBuckets bs u).flatMap StoryGroup.all_articles).Perm
        ((bs.flatMap (fun kb => kb.2)).map Prod.snd) := by
  intro bs
  induction bs with
  | nil => intro u _ _; simp [processBuckets]
  | cons hd tl ih =>
    obtain ⟨k, b⟩ := hd
    intro u hnd hu
    simp only [List.flatMap_cons, List.map_append] at hnd ⊢
    have hnd' := List.nodup_append.mp hnd
    have hndb : (b.map Prod.fst).Nodup := hnd'.1
    have hndtl : ((tl.flatMap (fun kb => kb.2)).map Prod.fst).Nodup := hnd'.2.1
    have hdisj := hnd'.2.2
    simp only [processBuckets, List.flatMap_append]
    have hub : ∀ q ∈ b, q.1 ∉ u := by
      intro q hq
      exact hu q (by simp only [List.flatMap_cons, List.mem_append]; exact Or.inl hq)
    have hfull : b.filter (fun q => decide (q.1 ∉ u)) = b :=
      List.filter_eq_self.mpr fun q hq => by simpa using hub q hq
    have hempty :
        b.filter (fun q => decide (q.1 ∉ (processBucket b u).2)) = [] :=
      List.filter_eq_nil_iff.mpr fun q hq => by
        simpa using process_complete b u q hq
    have hhead := process_perm b u hndb
    rw [hfull, hempty] at hhead
    simp only [List.map_nil, List.append_nil] at hhead
    have htail : ((processBuckets tl (processBucket b u).2).flatMap
        StoryGroup.all_articles).Perm
        ((tl.flatMap (fun kb => kb.2)).map Prod.snd) := by
      refine ih (processBucket b u).2 hndtl ?_
      intro q hq hmem
      rcases process_used_sub b u q.1 hmem with h | h
      · exact hu q (by simp only [List.flatMap_cons, List.mem_append]; exact Or.inr hq) h
      · exact hdisj h (List.mem_map_of_mem Prod.fst hq)
    exact hhead.append htail

/-- Claim C1: partition invariant — the concatenation of the `all_articles`
member lists over all groups output by `group_similar_articles` is a
permutation of the input list: no article is lost, none is duplicated
across groups, and every member comes from the input. -/
theorem c1_partition_invariant (articles : List Article) :
    ((group_similar_articles articles).flatMap StoryGroup.all_articles).Perm
      articles := by
  have hjoin := bucketsOf_join articles.enum
  have hfst : (((bucketsOf articles.enum).flatMap (fun kb => kb.2)).map
      Prod.fst).Nodup := by
    have hmap := hjoin.map Prod.fst
    rw [List.enum_map_fst] at hmap
    exact hmap.nodup_iff.mpr (List.nodup_range _)
  have hmain := buckets_perm (bucketsOf articles.enum) [] hfst (by simp)
  have hsnd := hjoin.map Prod.snd
  rw [List.enum_map_snd] at hsnd
  exact hmain.trans hsnd

/-- The URL normalization as worded by claim C4 and the specification:
`lowercase(trim(link)).rstrip('/')` with only a LEADING `"http://"`
replaced by `"https://"`.  Stated for comparison with the code's
`normalizeUrl`, which replaces every occurrence. -/
def claimNormalizeUrl (link : String) : String :=
  let base := ((pyStripWS (lowerL link.data)).reverse.dropWhile
    (fun c => c = '/')).reverse
  if ("http://".data).isPrefixOf base then
    String.mk (("https://".data) ++ base.drop 7)
  else String.mk base

/-- An article whose link embeds a non-leading `http://`. -/
def dA1 : Article := ⟨"t1", "https://x.com/a?u=http://y", "A", "ua", none⟩

/-- An article whose link differs from `dA1`'s only in that embedded
scheme. -/
def dA2 : Article := ⟨"t2", "https://x.com/a?u=https://y", "B", "ub", none⟩

/-- Counterexample to claim C4 as stated: the two links are distinct under
the claim's leading-only normalization, yet the dedup stage — whose
`str.replace` rewrites every occurrence of `"http://"` — collapses them and
drops the second article. -/
theorem c4_leading_only_counterexample :
    dedupByUrl [dA1, dA2] = [dA1] ∧
      claimNormalizeUrl dA1.link ≠ claimNormalizeUrl dA2.link := by
  exact ⟨rfl, by decide⟩

/-- The dedup output is a subsequence of its input. -/
theorem dedupGo_sublist :
    ∀ (l : List Article) (seen : List String), (dedupGo seen l).Sublist l := by
  intro l
  induction l with
  | nil => intro seen; simp [dedupGo]
  | cons a rest ih =>
    intro seen
    by_cases hb : pyStripWS a.link.data = []
    · simp only [dedupGo, if_pos hb]
      exact (ih seen).cons a
    · by_cases hs : normalizeUrl a.link ∈ seen
      · simp only [dedupGo, if_neg hb, if_pos hs]
        exact (ih seen).cons a
      · simp only [dedupGo, if_neg hb, if_neg hs]
        exact (ih _).cons₂ a

/-- Every article the dedup stage keeps has a non-blank link. -/
theorem dedupGo_nonblank :
    ∀ (l : List Article) (seen : List String) (a : Article),
      a ∈ dedupGo seen l → pyStripWS a.link.data ≠ [] := by
  intro l
  induction l with
  | nil => intro seen a ha; simp [dedupGo] at ha
  | cons b rest ih =>
    intro seen a ha
    by_cases hb : pyStripWS b.link.data = []
    · simp only [dedupGo, if_pos hb] at ha
      exact ih seen a ha
    · by_cases hs : normalizeUrl b.link ∈ seen
      · simp only [dedupGo, if_neg hb, if_pos hs] at ha
        exact ih seen a ha
      · simp only [dedupGo, if_neg hb, if_neg hs] at ha
        rcases List.mem_cons.mp ha with ha | ha
        · subst ha; exact hb
        · exact ih _ a ha

/-- The kept articles have pairwise distinct normalized links, none of them
in the `seen` set. -/
theorem dedupGo_nodup :
    ∀ (l : List Article) (seen : List String),
      ((dedupGo seen l).map (fun a => normalizeUrl a.link)).Nodup ∧
        ∀ a ∈ dedupGo seen l, normalizeUrl a.link ∉ seen := by
  intro l
  induction l with
  | nil => intro seen; simp [dedupGo]
  | cons b rest ih =>
    intro seen
    by_cases hb : pyStripWS b.link.data = []
    · simpa only [dedupGo, if_pos hb] using ih seen
    · by_cases hs : normalizeUrl b.link ∈ seen
      · simpa only [dedupGo, if_neg hb, if_pos hs] using ih seen
      · simp only [dedupGo, if_neg hb, if_neg hs, List.map_cons, List.nodup_cons]
        refine ⟨⟨?_, (ih _).1⟩, ?_⟩
        · intro hmem
          obtain ⟨x, hx, hxe⟩ := List.mem_map.mp hmem
          exact (ih _).2 x hx (hxe ▸ List.mem_cons_self _ _)
        · intro x hx
          rcases List.mem_cons.mp hx with hx | hx
          · subst hx; exact hs
          · exact fun hmem =>
              (ih _).2 x hx (List.mem_cons_of_mem _ hmem)

/-- Every input article with a non-blank link is represented in the output
(or was already represented in `seen`). -/
theorem dedupGo_complete :
    ∀ (l : List Article) (seen : List String) (a : Article), a ∈ l →
      pyStripWS a.link.data ≠ [] →
      normalizeUrl a.link ∈ seen ∨
        ∃ b ∈ dedupGo seen l, normalizeUrl b.link = normalizeUrl a.link := by
  intro l
  induction l with
  | nil => intro seen a ha; simp at ha
  | cons b rest ih =>
    intro seen a ha hblank
    rcases List.mem_cons.mp ha with ha | ha
    · subst ha
      by_cases hs : normalizeUrl a.link ∈ seen
      · exact Or.inl hs
      · simp only [dedupGo, if_neg hblank, if_neg hs]
        exact Or.inr ⟨a, List.mem_cons_self _ _, rfl⟩
    · by_cases hb : pyStripWS b.link.data = []
      · simp only [dedupGo, if_pos hb]
        exact ih seen a ha hblank
      · by_cases hs : normalizeUrl b.link ∈ seen
        · simp only [dedupGo, if_neg hb, if_pos hs]
          exact ih seen a ha hblank
        · simp only [dedupGo, if_neg hb, if_neg hs]
          rcases ih (normalizeUrl b.link :: seen) a ha hblank with h | ⟨c, hc, hce⟩
          · rcases List.mem_cons.mp h with h | h
            · exact Or.inr ⟨b, List.mem_cons_self _ _, h.symm⟩
            · exact Or.inl h
          · exact Or.inr ⟨c, List.mem_cons_of_mem _ hc, hce⟩

/-- The first non-blank occurrence of each normalized link is the article
that gets kept. -/
theorem dedupGo_first :
    ∀ (pre : List Article) (seen : List String) (a : Article)
      (post : List Article), pyStripWS a.link.data ≠ [] →
      normalizeUrl a.link ∉ seen →
      (∀ b ∈ pre, pyStripWS b.link.data = [] ∨
        normalizeUrl b.link ≠ normalizeUrl a.link) →
      a ∈ dedupGo seen (pre ++ a :: post) := by
  intro pre
  induction pre with
  | nil =>
    intro seen a post hblank hseen _
    simp only [List.nil_append, dedupGo, if_neg hblank, if_neg hseen]
    exact List.mem_cons_self _ _
  | cons b pre' ih =>
    intro seen a post hblank hseen hpre
    rcases hpre b (List.mem_cons_self _ _) with hb | hb
    · simp only [List.cons_append, dedupGo, if_pos hb]
      exact ih seen a post hblank hseen
        (fun c hc => hpre c (List.mem_cons_of_mem _ hc))
    · by_cases hs : normalizeUrl b.link ∈ seen
      · by_cases hbb : pyStripWS b.link.data = []
        · simp only [List.cons_append, dedupGo, if_pos hbb]
          exact ih seen a post hblank hseen
            (fun c hc => hpre c (List.mem_cons_of_mem _ hc))
        · simp only [List.cons_append, dedupGo, if_neg hbb, if_pos hs]
          exact ih seen a post hblank hseen
            (fun c hc => hpre c (List.mem_cons_of_mem _ hc))
      · by_cases hbb : pyStripWS b.link.data = []
        · simp only [List.cons_append, dedupGo, if_pos hbb]
          exact ih seen a post hblank hseen
            (fun c hc => hpre c (List.mem_cons_of_mem _ hc))
        · simp only [List.cons_append, dedupGo, if_neg hbb, if_neg hs]
          refine List.mem_cons_of_mem _ ?_
          refine ih _ a post hblank ?_
            (fun c hc => hpre c (List.mem_cons_of_mem _ hc))
          intro hmem
          rcases List.mem_cons.mp hmem with h | h
          · exact hb h.symm
          · exact hseen h

/-- Claim C4 (amended): the dedup stage keeps a subsequence of its input
consisting of the first occurrence of each distinct normalized link,
dropping blank links, where the normalization is
`lowercase(trim(link)).rstrip('/')` with EVERY occurrence of `"http://"`
replaced by `"https://"` (not only a leading one); query strings are
preserved. -/
theorem c4_dedup_contract (l : List Article) :
    (dedupByUrl l).Sublist l ∧
      (∀ a ∈ dedupByUrl l, pyStripWS a.link.data ≠ []) ∧
      ((dedupByUrl l).map (fun a => normalizeUrl a.link)).Nodup ∧
      (∀ a ∈ l, pyStripWS a.link.data ≠ [] →
        ∃ b ∈ dedupByUrl l, normalizeUrl b.link = normalizeUrl a.link) ∧
      (∀ pre a post, l = pre ++ a :: post → pyStripWS a.link.data ≠ [] →
        (∀ b ∈ pre, pyStripWS b.link.data = [] ∨
          normalizeUrl b.link ≠ normalizeUrl a.link) →
        a ∈ dedupByUrl l) := by
  refine ⟨dedupGo_sublist l [], fun a ha => dedupGo_nonblank l [] a ha,
    (dedupGo_nodup l []).1, fun a ha hb => ?_, fun pre a post he hb hp => ?_⟩
  · rcases dedupGo_complete l [] a ha hb with h | h
    · simp at h
    · exact h
  · rw [he]
    exact dedupGo_first pre [] a post hb (by simp) hp

/-- Witness for the amended C4: a blank-link article is dropped, a later
scheme/case/slash variant of `dA1`'s link is deduplicated, and `dA1`
itself — the first occurrence — is kept. -/
theorem c4_dedup_contract_witness :
    dedupByUrl [dA1, ⟨"t3", "   ", "C", "uc", none⟩,
        ⟨"t4", "HTTPS://X.com/a?u=http://y/", "D", "ud", none⟩] = [dA1] ∧
      dA1 ∈ dedupByUrl [dA1, ⟨"t3", "   ", "C", "uc", none⟩,
        ⟨"t4", "HTTPS://X.com/a?u=http://y/", "D", "ud", none⟩] :=
  ⟨rfl,
    (c4_dedup_contract [dA1, ⟨"t3", "   ", "C", "uc", none⟩,
      ⟨"t4", "HTTPS://X.com/a?u=http://y/", "D", "ud", none⟩]).2.2.2.2
      [] dA1 [⟨"t3", "   ", "C", "uc", none⟩,
        ⟨"t4", "HTTPS://X.com/a?u=http://y/", "D", "ud", none⟩] rfl
      (by decide) (by simp)⟩

/-- Stable insertion produces a permutation of consing. -/
theorem stableInsert_perm (le : α → α → Bool) (a : α) :
    ∀ l : List α, (stableInsert le a l).Perm (a :: l) := by
  intro l
  induction l with
  | nil => simp [stableInsert]
  | cons b l ih =>
    by_cases h : le a b = true
    · simp [stableInsert, h]
    · simp only [stableInsert, if_neg h]
      exact (ih.cons b).trans (List.Perm.swap a b l)

/-- The stable sort permutes its input. -/
theorem stableSort_perm (le : α → α → Bool) :
    ∀ l : List α, (stableSort le l).Perm l := by
  intro l
  induction l with
  | nil => simp [stableSort]
  | cons a l ih =>
    exact (stableInsert_perm le a (stableSort le l)).trans (ih.cons a)

/-- Stable insertion into a sorted list stays sorted (for a total,
transitive comparison). -/
theorem stableInsert_sorted (le : α → α → Bool)
    (htot : ∀ a b, le a b = true ∨ le b a = true)
    (htrans : ∀ a b c, le a b = true → le b c = true → le a c = true) (a : α) :
    ∀ l : List α, List.Pairwise (fun x y => le x y = true) l →
      List.Pairwise (fun x y => le x y = true) (stableInsert le a l) := by
  intro l
  induction l with
  | nil => intro _; simp [stableInsert]
  | cons b l ih =>
    intro hp
    have hpb := List.pairwise_cons.mp hp
    by_cases h : le a b = true
    · simp only [stableInsert, if_pos h]
      refine List.pairwise_cons.mpr ⟨?_, hp⟩
      intro x hx
      rcases List.mem_cons.mp hx with hx | hx
      · subst hx; exact h
      · exact htrans a b x h (hpb.1 x hx)
    · simp only [stableInsert, if_neg h]
      have hba : le b a = true := (htot a b).resolve_left h
      refine List.pairwise_cons.mpr ⟨?_, ih hpb.2⟩
      intro x hx
      have hx' : x ∈ a :: l := (stableInsert_perm le a l).mem_iff.mp hx
      rcases List.mem_cons.mp hx' with hx' | hx'
      · subst hx'; exact hba
      · exact hpb.1 x hx'

/-- The stable sort sorts (for a total, transitive comparison). -/
theorem stableSort_sorted (le : α → α → Bool)
    (htot : ∀ a b, le a b = true ∨ le b a = true)
    (htrans : ∀ a b c, le a b = true → le b c = true → le a c = true) :
    ∀ l : List α, List.Pairwise (fun x y => le x y = true) (stableSort le l) := by
  intro l
  induction l with
  | nil => simp [stableSort]
  | cons a l ih => exact stableInsert_sorted le htot htrans a _ ih

/-- Once a source has reached the cap, no further group of that source is
ever kept. -/
theorem capGo_saturated :
    ∀ (L : List StoryGroup) (counts : List (String × Nat)) (s : String),
      50 ≤ ((counts.lookup s).getD 0) →
      ∀ g ∈ capGo counts L, g.primary.source ≠ s := by
  intro L
  induction L with
  | nil => intro counts s _ g hg; simp [capGo] at hg
  | cons h T ih =>
    intro counts s hs g hg
    by_cases hc : ((counts.lookup h.primary.source).getD 0) < 50
    · simp only [capGo, if_pos hc] at hg
      have hne : h.primary.source ≠ s := by
        intro he
        rw [he] at hc
        omega
      rcases List.mem_cons.mp hg with hg | hg
      · subst hg; exact hne
      · refine ih _ s ?_ g hg
        have hbeq : (s == h.primary.source) = false :=
          beq_eq_false_iff_ne.mpr (fun he => hne he.symm)
        have hlk : ((h.primary.source, (counts.lookup h.primary.source).getD 0 + 1) ::
            counts).lookup s = counts.lookup s := by
          simp only [List.lookup, hbeq]
        rw [hlk]
        exact hs
    · simp only [capGo, if_neg hc] at hg
      exact ih counts s hs g hg

/-- If a group is kept by the cap while an earlier distinct same-source
group is present, the earlier group is kept too (counts only grow). -/
theorem capGo_keeps_earlier :
    ∀ (L : List StoryGroup) (counts : List (String × Nat)) (g1 g2 : StoryGroup),
      g1 ∈ L → g2 ∈ capGo counts L →
      g1.primary.source = g2.primary.source → g1 ≠ g2 →
      (∀ X Y, L = X ++ g1 :: Y → g2 ∉ X) →
      g1 ∈ capGo counts L := by
  intro L
  induction L with
  | nil => intro counts g1 g2 h1 _ _ _ _; simp at h1
  | cons h T ih =>
    intro counts g1 g2 h1 h2 hsrc hne hH
    by_cases hc : ((counts.lookup h.primary.source).getD 0) < 50
    · simp only [capGo, if_pos hc] at h2 ⊢
      by_cases hg1h : g1 = h
      · subst hg1h
        exact List.mem_cons_self _ _
      · have h1T : g1 ∈ T := (List.mem_cons.mp h1).resolve_left hg1h
        have hg2h : g2 ≠ h := by
          intro he
          obtain ⟨s, t, hst⟩ := List.append_of_mem h1T
          exact hH (h :: s) t (by rw [hst]; rfl)
            (by rw [he]; exact List.mem_cons_self _ _)
        have h2T : g2 ∈ capGo ((h.primary.source,
            (counts.lookup h.primary.source).getD 0 + 1) :: counts) T :=
          (List.mem_cons.mp h2).resolve_left (fun he => hg2h he)
        refine List.mem_cons_of_mem _ (ih _ g1 g2 h1T h2T hsrc hne ?_)
        intro X Y hT hmem
        exact hH (h :: X) Y (by rw [hT]; rfl) (List.mem_cons_of_mem _ hmem)
    · simp only [capGo, if_neg hc] at h2 ⊢
      by_cases hg1h : g1 = h
      · exfalso
        refine capGo_saturated T counts h.primary.source (by omega) g2 h2 ?_
        rw [← hsrc, hg1h]
      · have h1T : g1 ∈ T := (List.mem_cons.mp h1).resolve_left hg1h
        refine ih counts g1 g2 h1T h2 hsrc hne ?_
        intro X Y hT hmem
        exact hH (h :: X) Y (by rw [hT]; rfl) (List.mem_cons_of_mem _ hmem)

/-- In a list made of a sorted part followed by a tail not containing `g1`,
anything strictly greater than `g1` by the sort key cannot occur before
`g1`. -/
theorem no_strictly_smaller_before {off : Int} {A B X Y : List StoryGroup}
    {g1 g2 : StoryGroup}
    (hsorted : List.Pairwise (fun x y => groupGE off x y = true) A)
    (hg1B : g1 ∉ B)
    (hgt : get_group_timestamp off g2 < get_group_timestamp off g1)
    (heq : A ++ B = X ++ g1 :: Y) : g2 ∉ X := by
  intro hg2X
  rcases List.append_eq_append_iff.mp heq with ⟨w, _, hB⟩ | ⟨w, hA, hwB⟩
  · exact hg1B (by
      rw [hB]
      exact List.mem_append_right _ (List.mem_cons_self _ _))
  · cases w with
    | nil =>
      simp only [List.nil_append] at hwB
      exact hg1B (by rw [← hwB]; exact List.mem_cons_self _ _)
    | cons c0 w' =>
      have hc0 : c0 = g1 := (List.cons.injEq _ _ _ _ ▸ hwB.symm).1
      subst hc0
      rw [hA] at hsorted
      have hcross := (List.pairwise_append.mp hsorted).2.2 g2 hg2X c0
        (List.mem_cons_self _ _)
      have hle : get_group_timestamp off c0 ≤ get_group_timestamp off g2 :=
        of_decide_eq_true hcross
      omega

/-- Claim C9: the per-source cap of `generate_html` never drops a dated
group while keeping a strictly older same-source group — the cap is applied
to the newest-first order, so it retains each source's most recent groups —
and the final output is again sorted newest first. -/
theorem c9_cap_keeps_most_recent (off : Int) (groups : List StoryGroup)
    (g1 g2 : StoryGroup) (h1 : g1 ∈ groups)
    (hsrc : g1.primary.source = g2.primary.source)
    (hd1 : g1.primary.date.isSome = true)
    (hgt : get_group_timestamp off g2 < get_group_timestamp off g1)
    (h2 : g2 ∈ generate_html_sorted_groups off groups) :
    g1 ∈ generate_html_sorted_groups off groups ∧
      List.Pairwise
        (fun x y => get_group_timestamp off y ≤ get_group_timestamp off x)
        (generate_html_sorted_groups off groups) := by
  have htot : ∀ a b, groupGE off a b = true ∨ groupGE off b a = true := by
    intro a b
    rcases le_total (get_group_timestamp off b) (get_group_timestamp off a) with h | h
    · exact Or.inl (decide_eq_true h)
    · exact Or.inr (decide_eq_true h)
  have htrans : ∀ a b c, groupGE off a b = true → groupGE off b c = true →
      groupGE off a c = true := by
    intro a b c hab hbc
    exact decide_eq_true (le_trans (of_decide_eq_true hbc) (of_decide_eq_true hab))
  have hunfold : generate_html_sorted_groups off groups =
      stableSort (groupGE off) (capGo []
        (stableSort (groupGE off)
            (groups.filter (fun g => g.primary.date.isSome)) ++
          groups.filter (fun g => !g.primary.date.isSome))) := rfl
  rw [hunfold] at h2 ⊢
  have h2C : g2 ∈ capGo []
      (stableSort (groupGE off) (groups.filter (fun g => g.primary.date.isSome)) ++
        groups.filter (fun g => !g.primary.date.isSome)) :=
    (stableSort_perm _ _).mem_iff.mp h2
  have h1W : g1 ∈ groups.filter (fun g => g.primary.date.isSome) :=
    List.mem_filter.mpr ⟨h1, hd1⟩
  have h1L : g1 ∈ stableSort (groupGE off)
      (groups.filter (fun g => g.primary.date.isSome)) ++
        groups.filter (fun g => !g.primary.date.isSome) :=
    List.mem_append_left _ ((stableSort_perm _ _).mem_iff.mpr h1W)
  have hne : g1 ≠ g2 := by
    intro he
    rw [he] at hgt
    omega
  have hg1B : g1 ∉ groups.filter (fun g => !g.primary.date.isSome) := by
    intro hmem
    have := (List.mem_filter.mp hmem).2
    rw [hd1] at this
    simp at this
  have hH : ∀ X Y,
      stableSort (groupGE off) (groups.filter (fun g => g.primary.date.isSome)) ++
        groups.filter (fun g => !g.primary.date.isSome) = X ++ g1 :: Y →
      g2 ∉ X := by
    intro X Y heq
    exact no_strictly_smaller_before
      (stableSort_sorted (groupGE off) htot htrans _) hg1B hgt heq
  have hC := capGo_keeps_earlier _ [] g1 g2 h1L h2C hsrc hne hH
  refine ⟨(stableSort_perm _ _).mem_iff.mpr hC, ?_⟩
  exact (stableSort_sorted (groupGE off) htot htrans _).imp
    (fun h => of_decide_eq_true h)

/-- A same-source, older companion of `tA1` for the C9 witness. -/
def tB3 : Article :=
  ⟨"Markets open flat today", "https://a.com/3", "A", "https://a.com",
   some ⟨3600, some 0⟩⟩

/-- Witness for C9: with two same-source dated groups, the strictly newer
one is kept whenever the older one is. -/
theorem c9_cap_keeps_most_recent_witness :
    (⟨tB3, [], [tB3]⟩ : StoryGroup) ∈
        generate_html_sorted_groups istOffsetSeconds
          [⟨tB3, [], [tB3]⟩, ⟨tA1, [], [tA1]⟩] ∧
      (⟨tA1, [], [tA1]⟩ : StoryGroup) ∈
        generate_html_sorted_groups istOffsetSeconds
          [⟨tB3, [], [tB3]⟩, ⟨tA1, [], [tA1]⟩] :=
  ⟨by decide,
    (c9_cap_keeps_most_recent istOffsetSeconds
      [⟨tB3, [], [tB3]⟩, ⟨tA1, [], [tA1]⟩]
      ⟨tA1, [], [tA1]⟩ ⟨tB3, [], [tB3]⟩ (by decide) rfl rfl (by decide)
      (by decide)).1⟩

/-- `Char.ofNat` round-trips on valid codepoints. -/
theorem char_toNat_ofNat (n : Nat) (h : n.isValidChar) :
    (Char.ofNat n).toNat = n := by
  simp only [Char.ofNat, dif_pos h]
  simp [Char.ofNatAux, Char.toNat, UInt32.toNat]

/-- ASCII lowercasing is idempotent. -/
theorem toLower_idem (c : Char) :
    Char.toLower (Char.toLower c) = Char.toLower c := by
  unfold Char.toLower
  by_cases h : c.toNat ≥ 65 ∧ c.toNat ≤ 90
  · rw [if_pos h]
    have hv : (c.toNat + 32).isValidChar := Or.inl (by omega)
    have ht : (Char.ofNat (c.toNat + 32)).toNat = c.toNat + 32 :=
      char_toNat_ofNat _ hv
    rw [if_neg (by rw [ht]; omega)]
  · rw [if_neg h, if_neg h]

/-- Replacing punctuation by blanks is idempotent. -/
theorem depunct_idem (c : Char) : depunctChar (depunctChar c) = depunctChar c := by
  unfold depunctChar
  by_cases h : (pyIsWordChar c || pyIsSpace c) = true
  · rw [if_pos h, if_pos h]
  · rw [if_neg h, if_pos (by decide)]

/-- Blanking punctuation preserves lowercase-fixedness. -/
theorem depunct_toLower (c : Char) (h : Char.toLower c = c) :
    Char.toLower (depunctChar c) = depunctChar c := by
  unfold depunctChar
  by_cases hc : (pyIsWordChar c || pyIsSpace c) = true
  · rw [if_pos hc]; exact h
  · rw [if_neg hc]; decide

/-- No output character of the punctuation stage is a colon. -/
theorem depunct_ne_colon (c : Char) : depunctChar c ≠ ':' := by
  unfold depunctChar
  by_cases hc : (pyIsWordChar c || pyIsSpace c) = true
  · rw [if_pos hc]
    intro he
    subst he
    exact absurd hc (by decide)
  · rw [if_neg hc]; decide

/-- A map that fixes every member fixes the list. -/
theorem map_fixed (f : Char → Char) (l : List Char)
    (h : ∀ c ∈ l, f c = c) : l.map f = l := by
  calc l.map f = l.map id := List.map_congr_left h
    _ = l := List.map_id l

/-- One prefix-stripping step only removes characters. -/
theorem dropPrefixTag_chars {p s : List Char} {c : Char}
    (h : c ∈ dropPrefixTag p s) : c ∈ s := by
  unfold dropPrefixTag at h
  by_cases hp : ((p ++ [':']).isPrefixOf s) = true
  · rw [if_pos hp] at h
    exact ((List.dropWhile_sublist _).trans (List.drop_sublist _ _)).mem h
  · rwa [if_neg hp] at h

/-- The whole prefix-stripping fold only removes characters. -/
theorem stripFold_chars :
    ∀ (tags : List (List Char)) (s : List Char) (c : Char),
      c ∈ tags.foldl (fun acc p => dropPrefixTag p acc) s → c ∈ s := by
  intro tags
  induction tags with
  | nil => intro s c h; exact h
  | cons p tags ih =>
    intro s c h
    exact dropPrefixTag_chars (ih (dropPrefixTag p s) c h)

/-- Characters of the squeezed list are blanks or non-space input
characters. -/
theorem squeeze_chars :
    ∀ (v : List Char) (b : Bool) (c : Char), c ∈ squeezeAux b v →
      c = ' ' ∨ (c ∈ v ∧ pyIsSpace c = false) := by
  intro v
  induction v with
  | nil => intro b c h; simp [squeezeAux] at h
  | cons d rest ih =>
    intro b c h
    cases hsp : pyIsSpace d with
    | true =>
      cases b with
      | true =>
        simp only [squeezeAux, hsp, if_pos] at h
        rcases ih true c h with h | ⟨h1, h2⟩
        · exact Or.inl h
        · exact Or.inr ⟨List.mem_cons_of_mem _ h1, h2⟩
      | false =>
        simp only [squeezeAux, hsp, if_pos] at h
        rcases List.mem_cons.mp h with h | h
        · exact Or.inl h
        · rcases ih true c h with h | ⟨h1, h2⟩
          · exact Or.inl h
          · exact Or.inr ⟨List.mem_cons_of_mem _ h1, h2⟩
    | false =>
      simp only [squeezeAux, hsp] at h
      rcases List.mem_cons.mp h with h | h
      · subst h; exact Or.inr ⟨List.mem_cons_self _ _, hsp⟩
      · rcases ih false c h with h | ⟨h1, h2⟩
        · exact Or.inl h
        · exact Or.inr ⟨List.mem_cons_of_mem _ h1, h2⟩

/-- Right-stripping only removes characters. -/
theorem mem_pyRStrip {v : List Char} {c : Char} (h : c ∈ pyRStrip v) : c ∈ v := by
  unfold pyRStrip at h
  rw [List.mem_reverse] at h
  exact List.mem_reverse.mp ((List.dropWhile_sublist _).mem h)

/-- Stripping only removes characters. -/
theorem mem_pyStripWS {v : List Char} {c : Char} (h : c ∈ pyStripWS v) : c ∈ v := by
  exact (List.dropWhile_sublist _).mem (mem_pyRStrip h)

/-- Characters of the collapsed list are blanks or non-space input
characters. -/
theorem collapse_chars {v : List Char} {c : Char} (h : c ∈ collapseWS v) :
    c = ' ' ∨ (c ∈ v ∧ pyIsSpace c = false) :=
  squeeze_chars v false c (mem_pyStripWS h)

/-- A string with no colon is untouched by one prefix-stripping step. -/
theorem dropPrefixTag_id {p s : List Char} (h : (':' : Char) ∉ s) :
    dropPrefixTag p s = s := by
  unfold dropPrefixTag
  rw [if_neg]
  intro hp
  exact h ((List.isPrefixOf_iff_prefix.mp hp).sublist.mem
    (List.mem_append_right p (List.mem_singleton.mpr rfl)))

/-- A string with no colon is untouched by the whole prefix fold. -/
theorem stripFold_id {s : List Char} (h : (':' : Char) ∉ s) :
    ∀ tags : List (List Char),
      tags.foldl (fun acc p => dropPrefixTag p acc) s = s := by
  intro tags
  induction tags with
  | nil => rfl
  | cons p tags ih => simp only [List.foldl_cons, dropPrefixTag_id h, ih]

/-- Adjacent-whitespace freedom, the invariant established by the
whitespace squeeze. -/
def noDblRel (a b : Char) : Prop :=
  ¬(pyIsSpace a = true ∧ pyIsSpace b = true)

/-- The squeeze in sticky state never emits a leading whitespace
character. -/
theorem squeeze_head_nonspace :
    ∀ (v : List Char) (c : Char) (w : List Char),
      squeezeAux true v = c :: w → pyIsSpace c = false := by
  intro v
  induction v with
  | nil => intro c w h; simp [squeezeAux] at h
  | cons d rest ih =>
    intro c w h
    cases hsp : pyIsSpace d with
    | true =>
      simp only [squeezeAux, hsp, if_pos] at h
      exact ih c w h
    | false =>
      simp only [squeezeAux, hsp] at h
      rw [if_neg (by simp)] at h
      injection h with h1 _
      rw [← h1]
      exact hsp

/-- The squeeze output never has two adjacent whitespace characters. -/
theorem squeeze_nodbl :
    ∀ (v : List Char) (b : Bool), List.Chain' noDblRel (squeezeAux b v) := by
  intro v
  induction v with
  | nil => intro b; simp [squeezeAux]
  | cons d rest ih =>
    intro b
    cases hsp : pyIsSpace d with
    | true =>
      cases b with
      | true => simpa only [squeezeAux, hsp, if_pos] using ih true
      | false =>
        simp only [squeezeAux, hsp, if_pos]
        refine List.chain'_cons'.mpr ⟨?_, ih true⟩
        intro y hy
        cases hq : squeezeAux true rest with
        | nil => rw [hq] at hy; simp at hy
        | cons z zs =>
          rw [hq] at hy
          simp only [List.head?_cons, Option.mem_some_iff] at hy
          subst hy
          have hz := squeeze_head_nonspace rest z zs hq
          intro hand
          rw [hz] at hand
          exact absurd hand.2 (by simp)
    | false =>
      simp only [squeezeAux, hsp]
      refine List.chain'_cons'.mpr ⟨?_, ih false⟩
      intro y _
      intro hand
      rw [hsp] at hand
      exact absurd hand.1 (by simp)

/-- Right-stripping preserves adjacent-whitespace freedom. -/
theorem chain_pyRStrip {v : List Char} (h : List.Chain' noDblRel v) :
    List.Chain' noDblRel (pyRStrip v) := by
  unfold pyRStrip
  have h1 : List.Chain' (flip noDblRel) v.reverse :=
    List.chain'_reverse.mpr (h.imp (by intro a b hab; exact hab))
  exact List.chain'_reverse.mpr (h1.suffix (List.dropWhile_suffix _))

/-- Stripping preserves adjacent-whitespace freedom. -/
theorem chain_pyStripWS {v : List Char} (h : List.Chain' noDblRel v) :
    List.Chain' noDblRel (pyStripWS v) :=
  chain_pyRStrip (h.suffix (List.dropWhile_suffix _))

/-- The squeeze fixes a list that is already in squeezed shape (all
whitespace is single blanks); in sticky state this additionally needs a
non-space head. -/
theorem squeeze_fix :
    ∀ v : List Char, (∀ c ∈ v, pyIsSpace c = true → c = ' ') →
      List.Chain' noDblRel v →
      squeezeAux false v = v ∧
        ((∀ c w, v = c :: w → pyIsSpace c = false) → squeezeAux true v = v) := by
  intro v
  induction v with
  | nil => exact fun _ _ => ⟨rfl, fun _ => rfl⟩
  | cons c rest ih =>
    intro hP1 hND
    have hP1' : ∀ x ∈ rest, pyIsSpace x = true → x = ' ' :=
      fun x hx => hP1 x (List.mem_cons_of_mem _ hx)
    obtain ⟨ihf, iht⟩ := ih hP1' hND.tail
    cases hsp : pyIsSpace c with
    | true =>
      have hc : c = ' ' := hP1 c (List.mem_cons_self _ _) hsp
      have hrest : squeezeAux true rest = rest := by
        refine iht ?_
        intro d w hw
        have hrel := (List.chain'_cons'.mp hND).1 d (by rw [hw]; rfl)
        cases hdd : pyIsSpace d with
        | true => exact absurd ⟨hsp, hdd⟩ hrel
        | false => rfl
      subst hc
      constructor
      · simp [squeezeAux, hsp, hrest]
      · intro hhead
        have := hhead ' ' rest rfl
        rw [hsp] at this
        simp at this
    | false =>
      constructor
      · simp [squeezeAux, hsp, ihf]
      · intro _
        simp [squeezeAux, hsp, ihf]

/-- `dropWhile` is idempotent. -/
theorem dropWhile_idem (p : Char → Bool) :
    ∀ l : List Char, List.dropWhile p (List.dropWhile p l) = List.dropWhile p l := by
  intro l
  induction l with
  | nil => rfl
  | cons c rest ih =>
    cases hp : p c with
    | true => simpa [List.dropWhile_cons, hp] using ih
    | false => simp [List.dropWhile_cons, hp]

/-- Right-stripping yields a prefix. -/
theorem rstrip_prefix (v : List Char) : (pyRStrip v).IsPrefix v := by
  unfold pyRStrip
  have h := List.dropWhile_suffix (l := v.reverse) pyIsSpace
  obtain ⟨t, ht⟩ := h
  exact ⟨t.reverse, by rw [← List.reverse_append, ht, List.reverse_reverse]⟩

/-- Right-stripping is idempotent. -/
theorem rstrip_idem (v : List Char) : pyRStrip (pyRStrip v) = pyRStrip v := by
  unfold pyRStrip
  rw [List.reverse_reverse, dropWhile_idem]

/-- The head an all-of `dropWhile`'s output fails the predicate. -/
theorem dropWhile_head_false (p : Char → Bool) :
    ∀ (l : List Char) (c : Char) (w : List Char),
      List.dropWhile p l = c :: w → p c = false := by
  intro l
  induction l with
  | nil => intro c w h; simp at h
  | cons d rest ih =>
    intro c w h
    cases hp : p d with
    | true =>
      rw [List.dropWhile_cons, if_pos hp] at h
      exact ih c w h
    | false =>
      rw [List.dropWhile_cons, if_neg (by simp [hp])] at h
      injection h with h1 _
      rw [← h1]
      exact hp

/-- Left-stripping fixes a right-stripped left-stripped list. -/
theorem lstrip_rstrip_lstrip (v : List Char) :
    pyLStrip (pyRStrip (pyLStrip v)) = pyRStrip (pyLStrip v) := by
  cases hw : pyRStrip (pyLStrip v) with
  | nil => rfl
  | cons c w =>
    have hpre := rstrip_prefix (pyLStrip v)
    rw [hw] at hpre
    obtain ⟨t, ht⟩ := hpre
    have hlv : List.dropWhile pyIsSpace v = c :: (w ++ t) := by
      have hlv' : pyLStrip v = c :: (w ++ t) := by
        rw [← ht]
        simp
      exact hlv'
    have hc : pyIsSpace c = false :=
      dropWhile_head_false pyIsSpace v c (w ++ t) hlv
    show List.dropWhile pyIsSpace (c :: w) = c :: w
    rw [List.dropWhile_cons, if_neg (by simp [hc])]

/-- Stripping is idempotent. -/
theorem pyStripWS_idem (v : List Char) :
    pyStripWS (pyStripWS v) = pyStripWS v := by
  unfold pyStripWS
  rw [show pyRStrip (pyLStrip v) = pyStripWS v from rfl]
  rw [show pyLStrip (pyStripWS v) = pyStripWS v from lstrip_rstrip_lstrip v]
  exact rstrip_idem _

/-- Whitespace collapsing is idempotent. -/
theorem collapseWS_idem (v : List Char) :
    collapseWS (collapseWS v) = collapseWS v := by
  unfold collapseWS
  have hP1 : ∀ c ∈ pyStripWS (squeezeAux false v), pyIsSpace c = true → c = ' ' := by
    intro c hc hsp
    rcases squeeze_chars v false c (mem_pyStripWS hc) with h | ⟨_, h2⟩
    · exact h
    · rw [hsp] at h2; simp at h2
  have hND : List.Chain' noDblRel (pyStripWS (squeezeAux false v)) :=
    chain_pyStripWS (squeeze_nodbl v false)
  rw [(squeeze_fix _ hP1 hND).1]
  exact pyStripWS_idem _

/-- The underlying character list of a constructed string. -/
theorem string_data_mk (l : List Char) : (String.mk l).data = l := rfl

/-- Claim C10: `normalize_title` is idempotent — its output consists only of
lowercase word characters and single separating blanks, on which
lowercasing, prefix stripping (every pattern needs a colon), punctuation
blanking and whitespace collapsing all act as the identity. -/
theorem c10_normalize_title_idempotent (t : String) :
    normalize_title (normalize_title t) = normalize_title t := by
  by_cases h0 : t = ""
  · rw [h0]; rfl
  · have ht : normalize_title t =
        String.mk (collapseWS ((stripPrefixes (lowerL t.data)).map depunctChar)) := by
      simp only [normalize_title, if_neg h0]
    by_cases h1 : normalize_title t = ""
    · rw [h1]; rfl
    · have hchars : ∀ c ∈ collapseWS ((stripPrefixes (lowerL t.data)).map depunctChar),
          Char.toLower c = c ∧ depunctChar c = c ∧ c ≠ ':' := by
        intro c hc
        rcases collapse_chars hc with h | ⟨h1', _⟩
        · subst h
          exact ⟨by decide, by decide, by decide⟩
        · obtain ⟨d, hd, hde⟩ := List.mem_map.mp h1'
          have hdl : Char.toLower d = d := by
            obtain ⟨e, _, hee⟩ :=
              List.mem_map.mp (stripFold_chars prefixTags (lowerL t.data) d hd)
            rw [← hee]
            exact toLower_idem e
          subst hde
          refine ⟨depunct_toLower d hdl, depunct_idem d, depunct_ne_colon d⟩
      have ht2 : normalize_title t ≠ "" := h1
      rw [ht] at ht2 ⊢
      unfold normalize_title
      rw [if_neg ht2, string_data_mk]
      have hlow : lowerL (collapseWS ((stripPrefixes (lowerL t.data)).map
          depunctChar)) = collapseWS ((stripPrefixes (lowerL t.data)).map
          depunctChar) :=
        map_fixed _ _ (fun c hc => (hchars c hc).1)
      rw [hlow]
      have hstrip : stripPrefixes (collapseWS ((stripPrefixes (lowerL t.data)).map
          depunctChar)) = collapseWS ((stripPrefixes (lowerL t.data)).map
          depunctChar) :=
        stripFold_id (fun hc => (hchars _ hc).2.2 rfl) prefixTags
      rw [hstrip]
      have hdep : (collapseWS ((stripPrefixes (lowerL t.data)).map
          depunctChar)).map depunctChar = collapseWS ((stripPrefixes
          (lowerL t.data)).map depunctChar) :=
        map_fixed _ _ (fun c hc => (hchars c hc).2.1)
      rw [hdep, collapseWS_idem]
